import Mathlib

/-!
Verification of the meta-field processor (`meta.py`).

The module extracts inline markers of the form `\x7b\x7bname:value\x7d\x7d` from a
document, strips them, and substitutes `\x7b\x7bname\x7d\x7d` placeholders elsewhere.

Shallow embedding conventions:
* Text is `List Char` (with `String` wrappers mirroring the Python
  function names).  The Python regex `\x5c\x7b\x5c\x7b([\w-]+):([^\x7d]*)\x5c\x7b\x5c\x7d`
  is embedded as an explicit scanner (`matchMetaAt` / `scanMetaF`); since
  `:` is not a name character and the value class excludes the closing
  brace, the regex engine's backtracking is deterministic and the
  greedy-munch scanner below is exact.  `\w` (Unicode word characters)
  is modelled exactly over the Latin-1 range, `str.strip` over the six
  ASCII whitespace characters.
* Python dicts are association lists with insert-overwrite
  (`dictInsert`), preserving first-insertion position, as CPython does.
* `re.sub(pattern, repl, s)` with a `re.escape`-d literal pattern is
  leftmost non-overlapping literal replacement, but the replacement
  string is a *template*: backslash escapes in it are interpreted
  (`expandTemplate`) — character escapes, octal escapes, and the group-0
  reference (which, for a literal pattern, expands to the literal
  itself) — and bad escapes / references to nonexistent groups raise,
  hence the `Except` results.
* Recursions that consume non-structural amounts of input use a fuel
  parameter instantiated with the input length, so that all definitions
  reduce by `rfl`/`decide`.
-/

/-- Name characters of the marker pattern `[\w-]`.  CPython's `\w` on a
`str` pattern matches Unicode word characters (alphanumerics and the
underscore); this models it exactly on the Latin-1 range — ASCII
alphanumerics and underscore plus the Latin-1 word characters 0xAA,
0xB2-0xB3, 0xB5, 0xB9-0xBA, 0xBC-0xBE, 0xC0-0xD6, 0xD8-0xF6, 0xF8-0xFF —
together with the hyphen of the class; code points above U+00FF
(overwhelmingly word characters in real text) are modelled as word
characters. -/
def isNameChar (c : Char) : Bool :=
  let n := c.toNat
  (0x30 ≤ n && n ≤ 0x39) || (0x41 ≤ n && n ≤ 0x5A) || n == 0x5F ||
  (0x61 ≤ n && n ≤ 0x7A) || n == 0x2D ||
  n == 0xAA || n == 0xB2 || n == 0xB3 || n == 0xB5 || n == 0xB9 || n == 0xBA ||
  (0xBC ≤ n && n ≤ 0xBE) || (0xC0 ≤ n && n ≤ 0xD6) || (0xD8 ≤ n && n ≤ 0xF6) ||
  0xF8 ≤ n

/-- The ASCII class `[A-Za-z0-9_-]` named by the specification, for
comparison with the program's Unicode name-character class. -/
def isAsciiNameChar (c : Char) : Bool :=
  c.isAlphanum || c == '_' || c == '-'

/-- Characters allowed in a marker value: anything but the closing brace. -/
def notCloseBrace (c : Char) : Bool :=
  c != '\x7d'

/-- ASCII model of the whitespace stripped by `str.strip`. -/
def isSpaceChar (c : Char) : Bool :=
  c == ' ' || c == '\t' || c == '\n' || c == '\r' || c == '\x0b' || c == '\x0c'

/-- `str.strip`: drop whitespace from both ends. -/
def stripList (l : List Char) : List Char :=
  ((l.dropWhile isSpaceChar).reverse.dropWhile isSpaceChar).reverse

/-- Python dict assignment `d[k] = v`: overwrite in place if the key is
present (keeping its position), else append. -/
def dictInsert {K V : Type} [DecidableEq K] (d : List (K × V)) (k : K) (v : V) :
    List (K × V) :=
  match d with
  | [] => [(k, v)]
  | (k', v') :: rest => if k' = k then (k, v) :: rest else (k', v') :: dictInsert rest k v

/-- Python dict lookup `d[k]` (first binding wins; dicts built by
`dictInsert` have unique keys). -/
def dictLookup {K V : Type} [DecidableEq K] (d : List (K × V)) (k : K) : Option V :=
  match d with
  | [] => none
  | (k', v') :: rest => if k' = k then some v' else dictLookup rest k

/-- Python `d.update(e)`: sequential assignment of every binding of `e`. -/
def dictUpdate {K V : Type} [DecidableEq K] (d e : List (K × V)) : List (K × V) :=
  e.foldl (fun acc p => dictInsert acc p.1 p.2) d

/-- After the name run and the colon, read the value run and require the
two closing braces; on success return the value group and the rest. -/
def matchValueAt (r2 : List Char) : Option (List Char × List Char) :=
  match r2.dropWhile notCloseBrace with
  | b1 :: b2 :: r3 =>
    if b1 = '\x7d' then if b2 = '\x7d' then some (r2.takeWhile notCloseBrace, r3)
    else none else none
  | _ => none

/-- Try to match the marker regex at the head of the text; on success
return the name group, the value group and the unconsumed rest.  The
name run is the maximal run of name characters (must be non-empty and
followed by the colon), the value run the maximal run of
non-closing-brace characters. -/
def matchMetaAt (l : List Char) : Option (List Char × List Char × List Char) :=
  match l with
  | c1 :: c2 :: rest =>
    if c1 = '\x7b' then
      if c2 = '\x7b' then
        match rest.dropWhile isNameChar with
        | d :: r2 =>
          if d = ':' then
            if rest.takeWhile isNameChar = [] then none
            else
              match matchValueAt r2 with
              | some (v, r3) => some (rest.takeWhile isNameChar, v, r3)
              | none => none
          else none
        | _ => none
      else none
    else none
  | _ => none

/-- One left-to-right scan of the text, as both `re.findall` and
`re.sub(pattern, two-quotes, text)` perform it: at each position try the
pattern; on a match record the groups and resume after it, otherwise
keep the character and advance by one.  Returns the match list and the
text with all matches deleted.  Fuel-driven so that it reduces. -/
def scanMetaF : Nat → List Char → List (List Char × List Char) × List Char
  | 0, l => ([], l)
  | _ + 1, [] => ([], [])
  | fuel + 1, c :: rest =>
    match matchMetaAt (c :: rest) with
    | some (n, v, r) =>
      let p := scanMetaF fuel r
      ((n, v) :: p.1, p.2)
    | none =>
      let p := scanMetaF fuel rest
      (p.1, c :: p.2)

/-- The scan with enough fuel for the whole text. -/
def scanMeta (l : List Char) : List (List Char × List Char) × List Char :=
  scanMetaF l.length l

/-- Core of `extract_and_remove_meta_fields`: the dict comprehension
over the match list (stripping name and value) and the cleaned,
`strip`-ped text. -/
def extractCore (l : List Char) : List (List Char × List Char) × List Char :=
  let s := scanMeta l
  (s.1.foldl (fun d p => dictInsert d (stripList p.1) (stripList p.2)) [], stripList s.2)

/-- Octal digit test for replacement-template escapes. -/
def isOctDigit (c : Char) : Bool :=
  '0' ≤ c && c ≤ '7'

/-- Prepend a character to the payload of a successful computation. -/
def consE (c : Char) : Except String (List Char) → Except String (List Char)
  | .ok l => .ok (c :: l)
  | .error e => .error e

/-- CPython's parsing of an `re.sub` replacement template, specialised
to a pattern with zero capturing groups (a `re.escape`-d literal always
has zero groups, and — the pattern being a literal — group 0, the whole
match, always expands to the literal itself, passed here as `whole`).
The escapes of the template mini-language are interpreted: the character
escapes, octal escapes of the forms backslash-0 with up to two more
octal digits and backslash with exactly three octal digits (value at
most 0o377), and the group references: group 0 — written backslash-g
angle-zero (a run of ASCII digit zeros; CPython's other deprecated
spellings of zero, signed or with separators or Unicode digits, are not
modelled) — substitutes `whole`; every other group reference is invalid
for a zero-group pattern, unknown escapes of ASCII letters are errors,
and unknown escapes of other characters keep the backslash.
Fuel-driven so that it reduces. -/
def expandTemplateF (whole : List Char) : Nat → List Char → Except String (List Char)
  | 0, _ => .ok []
  | _ + 1, [] => .ok []
  | fuel + 1, c0 :: rest0 =>
    if c0 = '\\' then
      match rest0 with
      | [] => .error "bad escape (end of pattern)"
      | c :: rest2 =>
        if c == '\\' then consE '\\' (expandTemplateF whole fuel rest2)
        else if c == 'n' then consE '\n' (expandTemplateF whole fuel rest2)
        else if c == 'r' then consE '\r' (expandTemplateF whole fuel rest2)
        else if c == 't' then consE '\t' (expandTemplateF whole fuel rest2)
        else if c == 'v' then consE '\x0b' (expandTemplateF whole fuel rest2)
        else if c == 'f' then consE '\x0c' (expandTemplateF whole fuel rest2)
        else if c == 'a' then consE '\x07' (expandTemplateF whole fuel rest2)
        else if c == 'b' then consE '\x08' (expandTemplateF whole fuel rest2)
        else if c == 'g' then
          match rest2 with
          | '<' :: rest3 =>
            match rest3.dropWhile (fun d => d != '>') with
            | '>' :: rest4 =>
              let name := rest3.takeWhile (fun d => d != '>')
              if name.isEmpty then .error "missing group name"
              else if name.all (fun d => d == '0') then
                match expandTemplateF whole fuel rest4 with
                | .ok l => .ok (whole ++ l)
                | .error e => .error e
              else if name.all (fun d => d.isDigit) then
                .error "invalid group reference"
              else .error "unknown group name"
            | _ => .error "missing >, unterminated name"
          | _ => .error "missing <"
        else if c == '0' then
          match rest2 with
          | [] => .ok ['\x00']
          | d1 :: rest3 =>
            if isOctDigit d1 then
              match rest3 with
              | [] => .ok [Char.ofNat (d1.toNat - 48)]
              | d2 :: rest4 =>
                if isOctDigit d2 then
                  consE (Char.ofNat (8 * (d1.toNat - 48) + (d2.toNat - 48)))
                    (expandTemplateF whole fuel rest4)
                else consE (Char.ofNat (d1.toNat - 48))
                  (expandTemplateF whole fuel rest3)
            else consE '\x00' (expandTemplateF whole fuel rest2)
        else if c.isDigit then
          match rest2 with
          | d2 :: rest3 =>
            if d2.isDigit then
              if isOctDigit c && isOctDigit d2 then
                match rest3 with
                | d3 :: rest4 =>
                  if isOctDigit d3 then
                    if 255 < 64 * (c.toNat - 48) + 8 * (d2.toNat - 48) +
                        (d3.toNat - 48) then
                      .error "octal escape value outside of range 0-0o377"
                    else
                      consE (Char.ofNat (64 * (c.toNat - 48) +
                          8 * (d2.toNat - 48) + (d3.toNat - 48)))
                        (expandTemplateF whole fuel rest4)
                  else .error "invalid group reference"
                | [] => .error "invalid group reference"
              else .error "invalid group reference"
            else .error "invalid group reference"
          | [] => .error "invalid group reference"
        else if c.isAlpha then .error "bad escape"
        else consE '\\' (consE c (expandTemplateF whole fuel rest2))
    else consE c0 (expandTemplateF whole fuel rest0)

/-- The template parse with enough fuel for the whole template. -/
def expandTemplate (whole l : List Char) : Except String (List Char) :=
  expandTemplateF whole l.length l

/-- Boolean prefix test on character lists. -/
def isPref : List Char → List Char → Bool
  | [], _ => true
  | _ :: _, [] => false
  | a :: as, b :: bs => if a = b then isPref as bs else false

/-- Leftmost non-overlapping replacement of a literal pattern, as
`re.sub` performs it on a `re.escape`-d pattern: at each position, if
the pattern starts here emit the replacement and resume after the
match, otherwise keep the character.  Fuel-driven. -/
def replaceAllF (pat rep : List Char) : Nat → List Char → List Char
  | 0, l => l
  | _ + 1, [] => []
  | fuel + 1, c :: rest =>
    if isPref pat (c :: rest) then
      rep ++ replaceAllF pat rep fuel (List.drop pat.length (c :: rest))
    else
      c :: replaceAllF pat rep fuel rest

/-- The replacement with enough fuel for the whole text. -/
def replaceAll (pat rep l : List Char) : List Char :=
  replaceAllF pat rep l.length l

/-- Core of `replace_field`: `re.sub(re.escape(two-braces name braces), value,
content)` — the replacement template is compiled first (and may raise),
then every occurrence of the literal token is replaced. -/
def replaceFieldCore (content fieldname value : List Char) :
    Except String (List Char) :=
  match expandTemplate ('\x7b' :: '\x7b' :: (fieldname ++ ['\x7d', '\x7d'])) value with
  | .error e => .error e
  | .ok v =>
    .ok (replaceAll ('\x7b' :: '\x7b' :: (fieldname ++ ['\x7d', '\x7d'])) v content)

/-- Core of `replace_fields`: strip every value, then fold
`replace_field` over the bindings in order; a raise aborts the fold. -/
def replaceFieldsCore (content : List Char)
    (meta : List (List Char × List Char)) : Except String (List Char) :=
  (meta.map (fun p => (p.1, stripList p.2))).foldl
    (fun acc p =>
      match acc with
      | .error e => .error e
      | .ok c => replaceFieldCore c p.1 p.2)
    (.ok content)

/-- A per-file record of the host's store: the `content` and `meta`
entries of the Python dict, each possibly absent. -/
structure Record where
  content : Option (List Char)
  meta : Option (List (List Char × List Char))
deriving DecidableEq

/-- Error-propagating map over a list (the Python `for` loop: the first
raise aborts the whole traversal). -/
def mapStore {α β : Type} (f : α → Except String β) : List α → Except String (List β)
  | [] => .ok []
  | x :: xs =>
    match f x with
    | .error e => .error e
    | .ok y =>
      match mapStore f xs with
      | .error e => .error e
      | .ok ys => .ok (y :: ys)

/-- Body of the `load_meta_fields` loop for one record: read `content`
(KeyError if absent), extract, create `meta` if absent, merge the
extracted fields into it, store back the cleaned content. -/
def updateRecord (r : Record) : Except String Record :=
  match r.content with
  | none => .error "KeyError: content"
  | some c =>
    let e := extractCore c
    .ok ⟨some e.2, some (dictUpdate (r.meta.getD []) e.1)⟩

/-- `load_meta_fields`: run the record update over every file of the
document set. -/
def load_meta_fields (store : List (List Char × Record)) :
    Except String (List (List Char × Record)) :=
  mapStore (fun p =>
    match updateRecord p.2 with
    | .error e => .error e
    | .ok r => .ok (p.1, r)) store

/-- `replace_meta_fields`: look up the file's record (KeyError if the
key is absent), read its `meta` (KeyError if absent), substitute. -/
def replace_meta_fields (content : List Char) (file : List Char)
    (store : List (List Char × Record)) : Except String (List Char) :=
  match dictLookup store file with
  | none => .error "KeyError: file"
  | some r =>
    match r.meta with
    | none => .error "KeyError: meta"
    | some m => replaceFieldsCore content m

/-- `extract_and_remove_meta_fields` on strings. -/
def extract_and_remove_meta_fields (s : String) : List (String × String) × String :=
  let r := extractCore s.data
  (r.1.map (fun p => (p.1.asString, p.2.asString)), r.2.asString)

/-- `replace_field` on strings. -/
def replace_field (content fieldname value : String) : Except String String :=
  match replaceFieldCore content.data fieldname.data value.data with
  | .error e => .error e
  | .ok l => .ok l.asString

/-- `replace_fields` on strings. -/
def replace_fields (content : String) (meta : List (String × String)) :
    Except String String :=
  match replaceFieldsCore content.data (meta.map (fun p => (p.1.data, p.2.data))) with
  | .error e => .error e
  | .ok l => .ok l.asString

deriving instance DecidableEq for Except

/-- Successful-result payload of a fallible operation. -/
def okValue {ε α : Type} : Except ε α → Option α
  | .ok a => some a
  | .error _ => none

/-- Whether a fallible operation succeeded. -/
def exceptIsOk {ε α : Type} : Except ε α → Bool
  | .ok _ => true
  | .error _ => false

/-- Modelled from the spec's words for comparison with `replace_field`
("literal (non-regex-semantic) replacement of every occurrence of the
exact substring" of the token by the value): plain substring
replacement, written independently of the `re.sub` embedding. -/
def remAfter : List Char → List Char → Option (List Char)
  | [], l => some l
  | _ :: _, [] => none
  | a :: as, b :: bs => if a = b then remAfter as bs else none

/-- Modelled from the spec's words: fuel-driven plain literal
replacement scan. -/
def plainReplaceF (tok rep : List Char) : Nat → List Char → List Char
  | 0, l => l
  | _ + 1, [] => []
  | fuel + 1, c :: rest =>
    match remAfter tok (c :: rest) with
    | some l2 => rep ++ plainReplaceF tok rep fuel l2
    | none => c :: plainReplaceF tok rep fuel rest

/-- Modelled from the spec's words: plain literal substring replacement. -/
def plainReplace (content tok rep : List Char) : List Char :=
  plainReplaceF tok rep content.length content

/-- Plain literal substring replacement on strings. -/
def plainReplaceStr (content tok rep : String) : String :=
  (plainReplace content.data tok.data rep.data).asString

/-- Substring occurrence test. -/
def hasSubstr (t : List Char) : List Char → Bool
  | [] => t.isEmpty
  | c :: rest => isPref t (c :: rest) || hasSubstr t rest

/-- Substring occurrence test on strings. -/
def hasSubstrStr (t s : String) : Bool :=
  hasSubstr t.data s.data

section ListLemmas

variable {α : Type} (p : α → Bool)

lemma dwLen : ∀ l : List α, (l.dropWhile p).length ≤ l.length := by
  intro l
  induction l with
  | nil => simp [List.dropWhile]
  | cons c t ih =>
    cases h : p c with
    | false => simp [List.dropWhile, h]
    | true =>
      simp [List.dropWhile, h]
      omega

lemma twMem : ∀ (l : List α) (c : α), c ∈ l.takeWhile p → p c = true := by
  intro l
  induction l with
  | nil => simp [List.takeWhile]
  | cons d t ih =>
    intro c hc
    cases h : p d with
    | false => simp [List.takeWhile, h] at hc
    | true =>
      simp [List.takeWhile, h] at hc
      rcases hc with hc | hc
      · exact hc ▸ h
      · exact ih c hc

lemma twMemSub : ∀ (l : List α) (c : α), c ∈ l.takeWhile p → c ∈ l := by
  intro l
  induction l with
  | nil => simp [List.takeWhile]
  | cons d t ih =>
    intro c hc
    cases h : p d with
    | false => simp [List.takeWhile, h] at hc
    | true =>
      simp [List.takeWhile, h] at hc
      rcases hc with hc | hc
      · exact hc ▸ List.mem_cons_self d t
      · exact List.mem_cons_of_mem d (ih c hc)

lemma dwMemSub : ∀ (l : List α) (c : α), c ∈ l.dropWhile p → c ∈ l := by
  intro l
  induction l with
  | nil => simp [List.dropWhile]
  | cons d t ih =>
    intro c hc
    cases h : p d with
    | false => simpa [List.dropWhile, h] using hc
    | true =>
      simp [List.dropWhile, h] at hc
      exact List.mem_cons_of_mem d (ih c hc)

lemma twdwApp : ∀ (a : List α) (b : α) (t : List α), (∀ c ∈ a, p c = true) →
    p b = false →
    (a ++ b :: t).takeWhile p = a ∧ (a ++ b :: t).dropWhile p = b :: t := by
  intro a
  induction a with
  | nil =>
    intro b t _ hb
    constructor <;> simp [List.takeWhile, List.dropWhile, hb]
  | cons c a' ih =>
    intro b t ha hb
    have hc : p c = true := ha c (List.mem_cons_self c a')
    have ha' : ∀ d ∈ a', p d = true := fun d hd => ha d (List.mem_cons_of_mem c hd)
    have := ih b t ha' hb
    constructor <;> simp [List.takeWhile, List.dropWhile, hc, this.1, this.2]

lemma dwHead : ∀ (l : List α) (c : α) (t : List α), l.dropWhile p = c :: t →
    p c = false := by
  intro l
  induction l with
  | nil => simp [List.dropWhile]
  | cons d t' ih =>
    intro c t h
    cases hd : p d with
    | false =>
      simp [List.dropWhile, hd] at h
      exact h.1 ▸ hd
    | true =>
      simp [List.dropWhile, hd] at h
      exact ih c t h

lemma dwConsFalse (c : α) (t : List α) (h : p c = false) :
    (c :: t).dropWhile p = c :: t := by
  simp [List.dropWhile, h]

lemma dwIdem : ∀ l : List α, (l.dropWhile p).dropWhile p = l.dropWhile p := by
  intro l
  cases h : l.dropWhile p with
  | nil => simp [List.dropWhile]
  | cons c t => exact dwConsFalse p c t (dwHead p l c t h)

lemma dwAllFalse : ∀ l : List α, (∀ c ∈ l, p c = false) → l.dropWhile p = l := by
  intro l h
  cases l with
  | nil => simp [List.dropWhile]
  | cons c t => exact dwConsFalse p c t (h c (List.mem_cons_self c t))

end ListLemmas

lemma stripMem (c : Char) (l : List Char) (h : c ∈ stripList l) : c ∈ l := by
  unfold stripList at h
  rw [List.mem_reverse] at h
  have h2 := dwMemSub isSpaceChar _ c h
  rw [List.mem_reverse] at h2
  exact dwMemSub isSpaceChar l c h2

lemma stripIdem (l : List Char) : stripList (stripList l) = stripList l := by
  unfold stripList
  set y := l.dropWhile isSpaceChar with hy
  -- the right-trimmed list is a prefix of `y`, so its head still fails the
  -- whitespace test and the inner left-trim of the second strip is a no-op
  have hsplit : y = (y.reverse.dropWhile isSpaceChar).reverse ++
      (y.reverse.takeWhile isSpaceChar).reverse := by
    have htd := List.takeWhile_append_dropWhile (p := isSpaceChar) (l := y.reverse)
    calc y = y.reverse.reverse := by rw [List.reverse_reverse]
    _ = (y.reverse.takeWhile isSpaceChar ++ y.reverse.dropWhile isSpaceChar).reverse := by
        rw [htd]
    _ = _ := by rw [List.reverse_append]
  have hyy : y.dropWhile isSpaceChar = y := dwIdem isSpaceChar l
  have hfix : ((y.reverse.dropWhile isSpaceChar).reverse).dropWhile isSpaceChar =
      (y.reverse.dropWhile isSpaceChar).reverse := by
    cases hz : (y.reverse.dropWhile isSpaceChar).reverse with
    | nil => simp [List.dropWhile]
    | cons c t =>
      apply dwConsFalse
      -- `c` is the head of `y` since the right-trim is a prefix of `y`
      have hy2 := hsplit
      rw [hz] at hy2
      rw [List.cons_append] at hy2
      cases hc : isSpaceChar c with
      | false => rfl
      | true =>
        exfalso
        have hdr := hyy
        rw [hy2] at hdr
        simp [List.dropWhile, hc] at hdr
        have hlen := dwLen isSpaceChar (t ++ (y.reverse.takeWhile isSpaceChar).reverse)
        have hlen2 := congrArg List.length hdr
        rw [List.length_cons] at hlen2
        omega
  rw [hfix, List.reverse_reverse, dwIdem isSpaceChar y.reverse]

lemma stripNoSpace (l : List Char) (h : ∀ c ∈ l, isSpaceChar c = false) :
    stripList l = l := by
  unfold stripList
  rw [dwAllFalse isSpaceChar l h]
  rw [dwAllFalse isSpaceChar l.reverse (by intro c hc; exact h c (List.mem_reverse.mp hc))]
  exact List.reverse_reverse l

lemma isPrefIff : ∀ p l : List Char, isPref p l = true ↔ ∃ t, l = p ++ t := by
  intro p
  induction p with
  | nil =>
    intro l
    simp [isPref]
  | cons a as ih =>
    intro l
    cases l with
    | nil =>
      simp [isPref]
    | cons b bs =>
      constructor
      · intro h
        simp [isPref] at h
        obtain ⟨hab, h2⟩ := h
        obtain ⟨t, ht⟩ := (ih bs).mp h2
        exact ⟨t, by rw [hab, ht]; rfl⟩
      · rintro ⟨t, ht⟩
        rw [List.cons_append] at ht
        injection ht with h1 h2
        simp [isPref, h1]
        exact (ih bs).mpr ⟨t, h2⟩

lemma isPrefRefl (l : List Char) : isPref l l = true :=
  (isPrefIff l l).mpr ⟨[], by simp⟩

lemma hasSubstrOfPref (t s : List Char) (h : isPref t s = true) :
    hasSubstr t s = true := by
  cases s with
  | nil =>
    obtain ⟨u, hu⟩ := (isPrefIff t []).mp h
    have : t = [] := by
      cases t with
      | nil => rfl
      | cons a as => simp at hu
    simp [hasSubstr, this]
  | cons c rest => simp [hasSubstr, h]

lemma hasSubstrApp (t : List Char) : ∀ x y, hasSubstr t y = true →
    hasSubstr t (x ++ y) = true := by
  intro x
  induction x with
  | nil => intro y h; simpa using h
  | cons c x' ih =>
    intro y h
    rw [List.cons_append]
    simp [hasSubstr]
    right
    exact ih y h

lemma hasSubstrIff (t : List Char) : ∀ s, hasSubstr t s = true ↔
    ∃ a b, s = a ++ t ++ b := by
  intro s
  induction s with
  | nil =>
    constructor
    · intro h
      have ht : t = [] := by
        simpa [hasSubstr, List.isEmpty_iff] using h
      exact ⟨[], [], by simp [ht]⟩
    · rintro ⟨a, b, hab⟩
      have ht : t = [] := by
        cases a with
        | nil =>
          cases t with
          | nil => rfl
          | cons x xs => simp at hab
        | cons x xs => simp at hab
      simp [hasSubstr, ht]
  | cons c rest ih =>
    constructor
    · intro h
      simp [hasSubstr] at h
      rcases h with h | h
      · obtain ⟨u, hu⟩ := (isPrefIff t (c :: rest)).mp h
        exact ⟨[], u, by simpa using hu⟩
      · obtain ⟨a, b, hab⟩ := ih.mp h
        exact ⟨c :: a, b, by simp [hab]⟩
    · rintro ⟨a, b, hab⟩
      cases a with
      | nil =>
        simp at hab
        simp [hasSubstr]
        left
        exact (isPrefIff t (c :: rest)).mpr ⟨b, by simpa using hab⟩
      | cons a0 a' =>
        rw [List.cons_append, List.cons_append] at hab
        injection hab with h1 h2
        simp [hasSubstr]
        right
        exact ih.mpr ⟨a', b, by simpa using h2⟩

lemma remAfterIff : ∀ tok l l2 : List Char,
    remAfter tok l = some l2 ↔ l = tok ++ l2 := by
  intro tok
  induction tok with
  | nil => intro l l2; simp [remAfter]
  | cons a as ih =>
    intro l l2
    cases l with
    | nil => simp [remAfter]
    | cons b bs =>
      by_cases hab : a = b
      · subst hab
        have hr : remAfter (a :: as) (a :: bs) = remAfter as bs := by
          simp [remAfter]
        rw [hr, ih bs l2, List.cons_append]
        constructor
        · intro h; rw [h]
        · intro h; injection h
      · simp only [remAfter, if_neg hab]
        constructor
        · intro h; exact Option.noConfusion h
        · intro h
          rw [List.cons_append] at h
          injection h with h1 _
          exact absurd h1.symm hab

section DictLemmas

variable {K V : Type} [DecidableEq K]

lemma dictLookupInsertSelf (d : List (K × V)) (k : K) (v : V) :
    dictLookup (dictInsert d k v) k = some v := by
  induction d with
  | nil => simp [dictInsert, dictLookup]
  | cons q rest ih =>
    by_cases h : q.1 = k
    · simp [dictInsert, h, dictLookup]
    · simp [dictInsert, h, dictLookup, ih]

lemma dictLookupInsertNe (d : List (K × V)) (k' k : K) (v : V) (h : k' ≠ k) :
    dictLookup (dictInsert d k' v) k = dictLookup d k := by
  induction d with
  | nil => simp [dictInsert, dictLookup, h]
  | cons q rest ih =>
    by_cases hq : q.1 = k'
    · simp [dictInsert, hq, dictLookup, h]
    · simp [dictInsert, hq, dictLookup, ih]

lemma memDictInsert (d : List (K × V)) (k : K) (v : V) (q : K × V)
    (h : q ∈ dictInsert d k v) : q = (k, v) ∨ q ∈ d := by
  induction d with
  | nil => simpa [dictInsert] using h
  | cons q' rest ih =>
    by_cases hq : q'.1 = k
    · simp [dictInsert, hq] at h
      rcases h with h | h
      · exact Or.inl h
      · exact Or.inr (List.mem_cons_of_mem q' h)
    · simp [dictInsert, hq] at h
      rcases h with h | h
      · exact Or.inr (h ▸ List.mem_cons_self q' rest)
      · rcases ih h with h2 | h2
        · exact Or.inl h2
        · exact Or.inr (List.mem_cons_of_mem q' h2)

/-- First-some choice on options. -/
def optOr {β : Type} : Option β → Option β → Option β
  | some a, _ => some a
  | none, b => b

/-- The binding produced by the last matching pair of a left-to-right
scan of a pair list: a match further right wins over everything to its
left. -/
def lastVal (ps : List (K × V)) (k : K) : Option V :=
  match ps with
  | [] => none
  | p :: rest => optOr (lastVal rest k) (if p.1 = k then some p.2 else none)

lemma optOrNone {β : Type} (x : Option β) : optOr x none = x := by
  cases x <;> rfl

lemma lookupFoldlInsert (k : K) : ∀ (ps : List (K × V)) (d : List (K × V)),
    dictLookup (ps.foldl (fun acc p => dictInsert acc p.1 p.2) d) k =
      optOr (lastVal ps k) (dictLookup d k) := by
  intro ps
  induction ps with
  | nil => intro d; simp [lastVal, optOr]
  | cons p ps' ih =>
    intro d
    rw [List.foldl_cons, ih]
    show _ = optOr (optOr (lastVal ps' k) (if p.1 = k then some p.2 else none))
      (dictLookup d k)
    by_cases hp : p.1 = k
    · rw [if_pos hp]
      have hs : dictLookup (dictInsert d p.1 p.2) k = some p.2 := by
        rw [hp]
        exact dictLookupInsertSelf d k p.2
      rw [hs]
      cases lastVal ps' k <;> rfl
    · rw [if_neg hp, dictLookupInsertNe d p.1 k p.2 hp]
      cases lastVal ps' k <;> rfl

end DictLemmas

lemma isNameCharNotSpace (c : Char) (h : isNameChar c = true) :
    isSpaceChar c = false := by
  cases hs : isSpaceChar c with
  | false => rfl
  | true =>
    exfalso
    have hor : c = ' ' ∨ c = '\t' ∨ c = '\n' ∨ c = '\x0d' ∨ c = '\x0b' ∨ c = '\x0c' := by
      simp [isSpaceChar] at hs
      tauto
    rcases hor with h1 | h1 | h1 | h1 | h1 | h1 <;> (subst h1; exact absurd h (by decide))

lemma matchValueAtSome : ∀ r2 v r3, matchValueAt r2 = some (v, r3) →
    v = r2.takeWhile notCloseBrace ∧ (∀ c ∈ v, notCloseBrace c = true) ∧
    r2 = v ++ '\x7d' :: '\x7d' :: r3 := by
  intro r2 v r3 h
  unfold matchValueAt at h
  split at h
  next b1 b2 r3' heq =>
    split at h
    next hb1 =>
      split at h
      next hb2 =>
        injection h with h1
        injection h1 with hv hr
        subst hb1; subst hb2; subst hv; subst hr
        refine ⟨rfl, fun c hc => twMem notCloseBrace r2 c hc, ?_⟩
        have := List.takeWhile_append_dropWhile (p := notCloseBrace) (l := r2)
        rw [heq] at this
        exact this.symm
      next => exact Option.noConfusion h
    next => exact Option.noConfusion h
  next => exact Option.noConfusion h

lemma matchMetaAtSome : ∀ l n v r, matchMetaAt l = some (n, v, r) →
    n ≠ [] ∧ (∀ c ∈ n, isNameChar c = true) ∧ (∀ c ∈ v, notCloseBrace c = true) ∧
    l = '\x7b' :: '\x7b' :: (n ++ ':' :: (v ++ '\x7d' :: '\x7d' :: r)) := by
  intro l n v r h
  match l with
  | [] => simp [matchMetaAt] at h
  | [c1] => simp [matchMetaAt] at h
  | c1 :: c2 :: rest =>
    simp only [matchMetaAt] at h
    split at h
    next hc1 =>
      split at h
      next hc2 =>
        split at h
        next d r2 heq =>
          split at h
          next hd =>
            split at h
            next => exact Option.noConfusion h
            next hne =>
              split at h
              next v0 r3 hval =>
                injection h with h1
                injection h1 with hn h2
                injection h2 with hv hr
                obtain ⟨hv0, hvprop, hr2⟩ := matchValueAtSome r2 v0 r3 hval
                subst hn
                subst hv
                subst hr
                subst hc1
                subst hc2
                subst hd
                refine ⟨hne, fun c hc => twMem isNameChar rest c hc, hvprop, ?_⟩
                have hsplit := List.takeWhile_append_dropWhile
                  (p := isNameChar) (l := rest)
                rw [heq] at hsplit
                have hrest2 : rest = List.takeWhile isNameChar rest ++
                    ':' :: (v0 ++ '\x7d' :: '\x7d' :: r3) := by
                  rw [← hr2]
                  exact hsplit.symm
                conv_lhs => rw [hrest2]
              next => exact Option.noConfusion h
          next => exact Option.noConfusion h
        next => exact Option.noConfusion h
      next => exact Option.noConfusion h
    next => exact Option.noConfusion h

lemma matchMetaAtComplete (n v r : List Char) (hn : n ≠ [])
    (hname : ∀ c ∈ n, isNameChar c = true) (hval : ∀ c ∈ v, notCloseBrace c = true) :
    matchMetaAt ('\x7b' :: '\x7b' :: (n ++ ':' :: (v ++ '\x7d' :: '\x7d' :: r))) =
      some (n, v, r) := by
  have hcolon : isNameChar ':' = false := by decide
  have hbrace : notCloseBrace '\x7d' = false := by decide
  have hrest := twdwApp isNameChar n ':' (v ++ '\x7d' :: '\x7d' :: r) hname hcolon
  have hr2 := twdwApp notCloseBrace v '\x7d' ('\x7d' :: r) hval hbrace
  simp only [matchMetaAt]
  rw [hrest.2]
  simp only [matchValueAt]
  rw [hr2.2]
  simp [hrest.1, hr2.1, hn]

lemma scanNoMatch : ∀ (f : Nat) (l : List Char), (scanMetaF f l).1 = [] →
    (scanMetaF f l).2 = l := by
  intro f
  induction f with
  | zero => intro l _; rfl
  | succ f' ih =>
    intro l h
    cases l with
    | nil => rfl
    | cons c rest =>
      cases hm : matchMetaAt (c :: rest) with
      | some x =>
        exfalso
        obtain ⟨n, v, r⟩ := x
        simp [scanMetaF, hm] at h
      | none =>
        simp [scanMetaF, hm] at h
        simp [scanMetaF, hm, ih rest h]

lemma scanMem : ∀ (f : Nat) (l n v : List Char), (n, v) ∈ (scanMetaF f l).1 →
    n ≠ [] ∧ (∀ c ∈ n, isNameChar c = true) ∧ (∀ c ∈ v, notCloseBrace c = true) := by
  intro f
  induction f with
  | zero => intro l n v h; exact absurd h (by simp [scanMetaF])
  | succ f' ih =>
    intro l n v h
    cases l with
    | nil => exact absurd h (by simp [scanMetaF])
    | cons c rest =>
      cases hm : matchMetaAt (c :: rest) with
      | some x =>
        obtain ⟨n0, v0, r0⟩ := x
        simp [scanMetaF, hm] at h
        rcases h with ⟨hn, hv⟩ | h
        · obtain ⟨h1, h2, h3, _⟩ := matchMetaAtSome (c :: rest) n0 v0 r0 hm
          subst hn; subst hv
          exact ⟨h1, h2, h3⟩
        · exact ih r0 n v h
      | none =>
        simp [scanMetaF, hm] at h
        exact ih rest n v h

/-- Keys are pairwise distinct. -/
def nodupKeys {K V : Type} (d : List (K × V)) : Prop :=
  List.Pairwise (fun a b => a.1 ≠ b.1) d

section NodupLemmas

variable {K V : Type} [DecidableEq K]

lemma nodupDictInsert (d : List (K × V)) (k : K) (v : V) (h : nodupKeys d) :
    nodupKeys (dictInsert d k v) := by
  induction d with
  | nil => simp [dictInsert, nodupKeys]
  | cons q rest ih =>
    rcases (List.pairwise_cons.mp h) with ⟨hq, hrest⟩
    by_cases hqk : q.1 = k
    · show nodupKeys (if q.1 = k then (k, v) :: rest else _)
      rw [if_pos hqk]
      exact List.pairwise_cons.mpr ⟨fun b hb => hqk ▸ hq b hb, hrest⟩
    · show nodupKeys (if q.1 = k then _ else q :: dictInsert rest k v)
      rw [if_neg hqk]
      refine List.pairwise_cons.mpr ⟨?_, ih hrest⟩
      intro b hb
      rcases memDictInsert rest k v b hb with h2 | h2
      · rw [h2]; exact hqk
      · exact hq b h2

lemma nodupFoldlInsert : ∀ (ps d : List (K × V)), nodupKeys d →
    nodupKeys (ps.foldl (fun acc p => dictInsert acc p.1 p.2) d) := by
  intro ps
  induction ps with
  | nil => intro d h; exact h
  | cons p ps' ih =>
    intro d h
    rw [List.foldl_cons]
    exact ih _ (nodupDictInsert d p.1 p.2 h)

lemma lastValNone (k : K) : ∀ ps : List (K × V), (∀ q ∈ ps, q.1 ≠ k) →
    lastVal ps k = none := by
  intro ps
  induction ps with
  | nil => intro _; rfl
  | cons p rest ih =>
    intro h
    show optOr (lastVal rest k) (if p.1 = k then some p.2 else none) = none
    rw [if_neg (h p (List.mem_cons_self p rest)),
      ih (fun q hq => h q (List.mem_cons_of_mem p hq))]
    rfl

lemma lastValEqLookup (k : K) : ∀ ps : List (K × V), nodupKeys ps →
    lastVal ps k = dictLookup ps k := by
  intro ps
  induction ps with
  | nil => intro _; rfl
  | cons p rest ih =>
    intro h
    rcases (List.pairwise_cons.mp h) with ⟨hp, hrest⟩
    show optOr (lastVal rest k) (if p.1 = k then some p.2 else none) =
      dictLookup (p :: rest) k
    by_cases hpk : p.1 = k
    · rw [if_pos hpk, lastValNone k rest (fun q hq h2 => (hp q hq) (hpk.trans h2.symm))]
      simp [dictLookup, hpk, optOr]
    · rw [if_neg hpk, optOrNone, ih hrest]
      simp [dictLookup, hpk]

end NodupLemmas

lemma foldlInsertStrip : ∀ (ms : List (List Char × List Char))
    (d : List (List Char × List Char)),
    ms.foldl (fun d p => dictInsert d (stripList p.1) (stripList p.2)) d =
      (ms.map (fun p => (stripList p.1, stripList p.2))).foldl
        (fun acc p => dictInsert acc p.1 p.2) d := by
  intro ms
  induction ms with
  | nil => intro d; rfl
  | cons p ms' ih =>
    intro d
    simp only [List.foldl_cons, List.map_cons]
    exact ih _

lemma memFoldlInsert {K V : Type} [DecidableEq K] :
    ∀ (ps : List (K × V)) (d : List (K × V)) (q : K × V),
    q ∈ ps.foldl (fun acc p => dictInsert acc p.1 p.2) d → q ∈ d ∨ q ∈ ps := by
  intro ps
  induction ps with
  | nil => intro d q h; exact Or.inl h
  | cons p ps' ih =>
    intro d q h
    rw [List.foldl_cons] at h
    rcases ih _ q h with h2 | h2
    · rcases memDictInsert d p.1 p.2 q h2 with h3 | h3
      · exact Or.inr (h3 ▸ List.mem_cons_self p ps')
      · exact Or.inl h3
    · exact Or.inr (List.mem_cons_of_mem p h2)

/-- C1 counterexample: on the input whose marker removal concatenates the
surrounding text into a fresh marker, the cleaned content still contains a
marker, so a second extraction does not return an empty mapping with the
content unchanged. -/
theorem claim_C1_cx : extract_and_remove_meta_fields
    (extract_and_remove_meta_fields "\x7b\x7bx\x7b\x7ba:b\x7d\x7d:v\x7d\x7d").2 ≠
    ([], (extract_and_remove_meta_fields "\x7b\x7bx\x7b\x7ba:b\x7d\x7d:v\x7d\x7d").2) := by
  decide

/-- C1 (amended): when the cleaned content produced by extraction contains no
meta marker (no match of the pattern anywhere), extracting again yields the
empty mapping and returns the cleaned content unchanged. -/
theorem claim_C1 : ∀ l : List Char,
    (scanMeta (extractCore l).2).1 = [] →
    extractCore (extractCore l).2 = ([], (extractCore l).2) := by
  intro l h
  have h2 : (scanMeta (extractCore l).2).2 = (extractCore l).2 :=
    scanNoMatch ((extractCore l).2).length _ h
  show ((scanMeta (extractCore l).2).1.foldl
      (fun d p => dictInsert d (stripList p.1) (stripList p.2)) [],
    stripList (scanMeta (extractCore l).2).2) = ([], (extractCore l).2)
  rw [h, h2]
  show (([] : List (List Char × List Char)), stripList (stripList (scanMeta l).2)) = _
  rw [stripIdem]
  rfl

theorem claim_C1_witness :
    (scanMeta (extractCore "a \x7b\x7bt:v\x7d\x7d b".data).2).1 = [] ∧
    extractCore (extractCore "a \x7b\x7bt:v\x7d\x7d b".data).2 =
      ([], (extractCore "a \x7b\x7bt:v\x7d\x7d b".data).2) :=
  ⟨by decide, claim_C1 "a \x7b\x7bt:v\x7d\x7d b".data (by decide)⟩

/-- C3 counterexample: the program's name class is CPython's Unicode word
class plus hyphen, not `[A-Za-z0-9_-]`: the marker whose name is the single
letter e-acute is extracted and removed by the program although that letter
lies outside `[A-Za-z0-9_-]`, so the span is not left untouched. -/
theorem claim_C3_cx :
    extract_and_remove_meta_fields "\x7b\x7bé:v\x7d\x7d" = ([("é", "v")], "") ∧
    isAsciiNameChar 'é' = false := by
  refine ⟨by decide, by decide⟩

/-- C3 (amended): a span of the marker shape is recognized at its position,
with exactly the given name and value, iff the name is a non-empty run of
word characters (CPython word class, whose ASCII part is `[A-Za-z0-9_]`) or
hyphens and the value contains no closing brace — verified here for names
over the Latin-1 range, on which the word-character model is exact; moreover
when nothing in the content matches, the removal pass leaves the content
untouched. -/
theorem claim_C3 :
    (∀ name value rest : List Char,
      (∀ c ∈ name, c.toNat ≤ 0xFF) →
      (matchMetaAt ('\x7b' :: '\x7b' ::
          (name ++ ':' :: (value ++ '\x7d' :: '\x7d' :: rest))) =
        some (name, value, rest) ↔
      (name ≠ [] ∧ (∀ c ∈ name, isNameChar c = true) ∧
        (∀ c ∈ value, c ≠ '\x7d')))) ∧
    (∀ l : List Char, (scanMeta l).1 = [] → (scanMeta l).2 = l) := by
  constructor
  · intro name value rest _
    constructor
    · intro h
      obtain ⟨h1, h2, h3, _⟩ := matchMetaAtSome _ name value rest h
      refine ⟨h1, h2, fun c hc => ?_⟩
      have h4 := h3 c hc
      simpa [notCloseBrace] using h4
    · rintro ⟨h1, h2, h3⟩
      exact matchMetaAtComplete name value rest h1 h2
        (fun c hc => by simpa [notCloseBrace] using h3 c hc)
  · intro l h
    exact scanNoMatch l.length l h

theorem claim_C3_witness :
    matchMetaAt ('\x7b' :: '\x7b' ::
        ("ab-1".data ++ ':' :: ("val".data ++ '\x7d' :: '\x7d' :: []))) =
      some ("ab-1".data, "val".data, []) ∧
    (scanMeta "no markers here".data).2 = "no markers here".data :=
  ⟨(claim_C3.1 "ab-1".data "val".data [] (by decide)).mpr
      ⟨by decide, by decide, by decide⟩,
    claim_C3.2 "no markers here".data (by decide)⟩

/-- C4: extraction of the reference input yields the mapping
[title ↦ Hello World, draft ↦ yes] (in scan order) and the cleaned,
whitespace-trimmed content. -/
theorem claim_C4 : extract_and_remove_meta_fields
    "Title: \x7b\x7btitle:Hello World\x7d\x7d body \x7b\x7bdraft:yes\x7d\x7d" =
    ([("title", "Hello World"), ("draft", "yes")], "Title:  body") := by
  decide

/-- C5: the mapping binds a name to the stripped value of the last matching
marker in left-to-right scan order (and to nothing when no marker matches the
name); in particular a marker x:1 before a marker x:2 yields the value 2. -/
theorem claim_C5 :
    (∀ (l : List Char) (k : List Char),
      dictLookup (extractCore l).1 k =
        lastVal ((scanMeta l).1.map (fun p => (stripList p.1, stripList p.2))) k) ∧
    dictLookup (extract_and_remove_meta_fields
      "a \x7b\x7bx:1\x7d\x7d b \x7b\x7bx:2\x7d\x7d c").1 "x" = some "2" := by
  constructor
  · intro l k
    show dictLookup ((scanMeta l).1.foldl
        (fun d p => dictInsert d (stripList p.1) (stripList p.2)) []) k = _
    rw [foldlInsertStrip, lookupFoldlInsert]
    exact optOrNone _
  · decide

/-- C10: every key of the extracted mapping is non-empty and contains no
whitespace, and every value contains no closing brace and carries no
surrounding whitespace (stripping it again is the identity). -/
theorem claim_C10 : ∀ (l k v : List Char), (k, v) ∈ (extractCore l).1 →
    (k ≠ [] ∧ ∀ c ∈ k, isSpaceChar c = false) ∧
    (∀ c ∈ v, c ≠ '\x7d') ∧ stripList v = v := by
  intro l k v h
  have hm : (k, v) ∈ ((scanMeta l).1.map
      (fun p => (stripList p.1, stripList p.2))) := by
    have h0 : (k, v) ∈ (scanMeta l).1.foldl
        (fun d p => dictInsert d (stripList p.1) (stripList p.2)) [] := h
    rw [foldlInsertStrip] at h0
    rcases memFoldlInsert _ [] (k, v) h0 with h1 | h1
    · exact absurd h1 (List.not_mem_nil _)
    · exact h1
  rw [List.mem_map] at hm
  obtain ⟨p, hp, hpq⟩ := hm
  obtain ⟨hn1, hn2, hv2⟩ := scanMem l.length l p.1 p.2 (by simpa using hp)
  injection hpq with hk hv
  have hnos : ∀ c ∈ p.1, isSpaceChar c = false :=
    fun c hc => isNameCharNotSpace c (hn2 c hc)
  have hkp : k = p.1 := by rw [← hk, stripNoSpace p.1 hnos]
  constructor
  · constructor
    · rw [hkp]; exact hn1
    · intro c hc; exact hnos c (hkp ▸ hc)
  · constructor
    · intro c hc
      have hcv : c ∈ p.2 := stripMem c p.2 (hv ▸ hc)
      have := hv2 c hcv
      simpa [notCloseBrace] using this
    · rw [← hv]; exact stripIdem p.2

theorem claim_C10_witness :
    (("a".data ≠ [] ∧ ∀ c ∈ "a".data, isSpaceChar c = false) ∧
    (∀ c ∈ "b".data, c ≠ '\x7d') ∧ stripList "b".data = "b".data) :=
  claim_C10 "\x7b\x7ba:b\x7d\x7d".data "a".data "b".data (by decide)

/-- C7: replace_fields strips every value of the mapping before substituting,
and this stripping is idempotent: pre-stripping the mapping's values changes
nothing; in particular the value two-spaces foo two-spaces is substituted as
foo. -/
theorem claim_C7 :
    (∀ (content : List Char) (meta : List (List Char × List Char)),
      replaceFieldsCore content (meta.map (fun p => (p.1, stripList p.2))) =
        replaceFieldsCore content meta) ∧
    replace_fields "\x7b\x7bx\x7d\x7d" [("x", "  foo  ")] = .ok "foo" := by
  constructor
  · intro content meta
    unfold replaceFieldsCore
    rw [List.map_map]
    have hgg : ((fun p : List Char × List Char => (p.1, stripList p.2)) ∘
        (fun p : List Char × List Char => (p.1, stripList p.2))) =
        (fun p : List Char × List Char => (p.1, stripList p.2)) := by
      funext p
      simp [Function.comp, stripIdem]
    rw [hgg]
  · decide

lemma expandNoBackslash (whole : List Char) : ∀ (f : Nat) (l : List Char),
    l.length ≤ f →
    (∀ c ∈ l, c ≠ '\\') → expandTemplateF whole f l = .ok l := by
  intro f
  induction f with
  | zero =>
    intro l hl _
    have hnil : l = [] := List.eq_nil_of_length_eq_zero (Nat.le_zero.mp hl)
    rw [hnil]
    rfl
  | succ f' ih =>
    intro l hl hb
    cases l with
    | nil => rfl
    | cons c rest =>
      have hc : c ≠ '\\' := hb c (List.mem_cons_self c rest)
      have hlen : rest.length ≤ f' := by
        rw [List.length_cons] at hl
        omega
      have hrest := ih rest hlen (fun d hd => hb d (List.mem_cons_of_mem c hd))
      simp only [expandTemplateF, if_neg hc, hrest]
      rfl

lemma replacePlainEq (pat rep : List Char) : ∀ (f : Nat) (l : List Char),
    replaceAllF pat rep f l = plainReplaceF pat rep f l := by
  intro f
  induction f with
  | zero => intro l; rfl
  | succ f' ih =>
    intro l
    cases l with
    | nil => rfl
    | cons c rest =>
      cases hp : isPref pat (c :: rest) with
      | true =>
        obtain ⟨t, ht⟩ := (isPrefIff pat (c :: rest)).mp hp
        have hrem : remAfter pat (c :: rest) = some t := (remAfterIff pat _ t).mpr ht
        have hdrop : List.drop pat.length (c :: rest) = t := by
          rw [ht]
          exact List.drop_left pat t
        simp only [replaceAllF, plainReplaceF, hp, if_true, hrem, hdrop, ih]
      | false =>
        have hrem : remAfter pat (c :: rest) = none := by
          cases hr : remAfter pat (c :: rest) with
          | none => rfl
          | some t =>
            exfalso
            have ht := (remAfterIff pat _ t).mp hr
            have := (isPrefIff pat (c :: rest)).mpr ⟨t, ht⟩
            rw [hp] at this
            exact Bool.noConfusion this
        simp only [replaceAllF, plainReplaceF, hp, hrem, ih]
        simp

/-- C2 counterexample: with the replacement value backslash-n (two
characters), replace_field substitutes a newline character, which differs
from plain substring replacement of the token by the value. -/
theorem claim_C2_cx :
    replace_field "\x7b\x7bx\x7d\x7d" "x" "\\n" ≠
      .ok (plainReplaceStr "\x7b\x7bx\x7d\x7d" "\x7b\x7bx\x7d\x7d" "\\n") := by
  decide

/-- C2 (amended): whenever the replacement value contains no backslash,
replace_field succeeds and equals plain literal substring replacement of
every occurrence of the brace-wrapped token by the value (the field name,
being escaped, is matched literally). -/
theorem claim_C2 : ∀ content fieldname value : String,
    (∀ c ∈ value.data, c ≠ '\\') →
    replace_field content fieldname value =
      .ok (plainReplaceStr content ("\x7b\x7b" ++ fieldname ++ "\x7d\x7d") value) := by
  intro content fieldname value hv
  have hexp : expandTemplate
      ('\x7b' :: '\x7b' :: (fieldname.data ++ ['\x7d', '\x7d'])) value.data =
      .ok value.data :=
    expandNoBackslash ('\x7b' :: '\x7b' :: (fieldname.data ++ ['\x7d', '\x7d']))
      value.data.length value.data le_rfl hv
  have hcore : replaceFieldCore content.data fieldname.data value.data =
      .ok (replaceAll ('\x7b' :: '\x7b' :: (fieldname.data ++ ['\x7d', '\x7d']))
        value.data content.data) := by
    unfold replaceFieldCore
    rw [hexp]
  unfold replace_field
  rw [hcore]
  unfold plainReplaceStr
  have htok : ("\x7b\x7b" ++ fieldname ++ "\x7d\x7d").data =
      '\x7b' :: '\x7b' :: (fieldname.data ++ ['\x7d', '\x7d']) := by
    simp [String.data_append]
  rw [htok]
  unfold replaceAll plainReplace
  rw [replacePlainEq]

theorem claim_C2_witness :
    replace_field "\x7b\x7bx\x7d\x7d and \x7b\x7bx\x7d\x7d" "x" "Ann" =
      .ok (plainReplaceStr "\x7b\x7bx\x7d\x7d and \x7b\x7bx\x7d\x7d"
        ("\x7b\x7b" ++ "x" ++ "\x7d\x7d") "Ann") :=
  claim_C2 "\x7b\x7bx\x7d\x7d and \x7b\x7bx\x7d\x7d" "x" "Ann" (by decide)

lemma lookupDictUpdate {K V : Type} [DecidableEq K] (d e : List (K × V))
    (he : nodupKeys e) (k : K) :
    dictLookup (dictUpdate d e) k = optOr (dictLookup e k) (dictLookup d k) := by
  unfold dictUpdate
  rw [lookupFoldlInsert, lastValEqLookup k e he]

lemma extractNodup (l : List Char) : nodupKeys (extractCore l).1 := by
  show nodupKeys ((scanMeta l).1.foldl
    (fun d p => dictInsert d (stripList p.1) (stripList p.2)) [])
  rw [foldlInsertStrip]
  exact nodupFoldlInsert _ [] List.Pairwise.nil

/-- C8: for a record with content, the per-file step of load_meta_fields
replaces the content by the cleaned string and the meta mapping by the merge
of the (possibly freshly created) old mapping with the extracted fields,
where an extracted binding overwrites and any other key keeps its old value
(the optOr equation); and on the reference store, the record with author Bob
and a title marker ends with both bindings. -/
theorem claim_C8 :
    (∀ (r : Record) (c : List Char) (k : List Char), r.content = some c →
      updateRecord r = .ok ⟨some (extractCore c).2,
        some (dictUpdate (r.meta.getD []) (extractCore c).1)⟩ ∧
      dictLookup (dictUpdate (r.meta.getD []) (extractCore c).1) k =
        optOr (dictLookup (extractCore c).1 k)
          (dictLookup (r.meta.getD []) k)) ∧
    load_meta_fields [("doc".data, ⟨some "A \x7b\x7btitle:Doc\x7d\x7d B".data,
        some [("author".data, "Bob".data)]⟩)] =
      .ok [("doc".data, ⟨some "A  B".data,
        some [("author".data, "Bob".data), ("title".data, "Doc".data)]⟩)] := by
  constructor
  · intro r c k hc
    constructor
    · simp [updateRecord, hc]
    · exact lookupDictUpdate (r.meta.getD []) (extractCore c).1 (extractNodup c) k
  · decide

theorem claim_C8_witness :
    updateRecord ⟨some "q \x7b\x7bt:u\x7d\x7d".data, some [("z".data, "w".data)]⟩ =
      .ok ⟨some (extractCore "q \x7b\x7bt:u\x7d\x7d".data).2,
        some (dictUpdate ((some [("z".data, "w".data)] : Option
          (List (List Char × List Char))).getD [])
          (extractCore "q \x7b\x7bt:u\x7d\x7d".data).1)⟩ ∧
    dictLookup (dictUpdate ((some [("z".data, "w".data)] : Option
        (List (List Char × List Char))).getD [])
        (extractCore "q \x7b\x7bt:u\x7d\x7d".data).1) "z".data =
      optOr (dictLookup (extractCore "q \x7b\x7bt:u\x7d\x7d".data).1 "z".data)
        (dictLookup ((some [("z".data, "w".data)] : Option
          (List (List Char × List Char))).getD []) "z".data) :=
  claim_C8.1 ⟨some "q \x7b\x7bt:u\x7d\x7d".data, some [("z".data, "w".data)]⟩
    "q \x7b\x7bt:u\x7d\x7d".data "z".data rfl

lemma foldFromError (e : String) : ∀ ps : List (List Char × List Char),
    ps.foldl (fun (acc : Except String (List Char)) p =>
      match acc with
      | .error e2 => .error e2
      | .ok c => replaceFieldCore c p.1 p.2) (.error e) = .error e := by
  intro ps
  induction ps with
  | nil => rfl
  | cons p ps' ih =>
    rw [List.foldl_cons]
    exact ih

lemma replaceFieldsIsOk : ∀ (meta : List (List Char × List Char))
    (content : List Char),
    exceptIsOk (replaceFieldsCore content meta) =
      meta.all (fun p => exceptIsOk (expandTemplate
        ('\x7b' :: '\x7b' :: (p.1 ++ ['\x7d', '\x7d'])) (stripList p.2))) := by
  intro meta
  induction meta with
  | nil => intro content; rfl
  | cons p rest ih =>
    intro content
    show exceptIsOk (((p.1, stripList p.2) ::
        rest.map (fun p => (p.1, stripList p.2))).foldl
      (fun acc q =>
        match acc with
        | .error e => .error e
        | .ok c => replaceFieldCore c q.1 q.2) (.ok content)) = _
    rw [List.foldl_cons]
    show exceptIsOk ((rest.map (fun p => (p.1, stripList p.2))).foldl _
      (replaceFieldCore content p.1 (stripList p.2))) = _
    cases he : expandTemplate ('\x7b' :: '\x7b' :: (p.1 ++ ['\x7d', '\x7d']))
        (stripList p.2) with
    | error e =>
      have hrf : replaceFieldCore content p.1 (stripList p.2) = .error e := by
        unfold replaceFieldCore
        rw [he]
      rw [hrf, foldFromError e (rest.map (fun p => (p.1, stripList p.2)))]
      rw [List.all_cons, he]
      rfl
    | ok v =>
      have hrf : replaceFieldCore content p.1 (stripList p.2) =
          .ok (replaceAll ('\x7b' :: '\x7b' :: (p.1 ++ ['\x7d', '\x7d'])) v content) := by
        unfold replaceFieldCore
        rw [he]
      rw [hrf]
      have hstep := ih (replaceAll ('\x7b' :: '\x7b' :: (p.1 ++ ['\x7d', '\x7d'])) v content)
      rw [List.all_cons, he]
      exact hstep

lemma mapStoreIsOk {α β : Type} (f : α → Except String β) : ∀ l : List α,
    exceptIsOk (mapStore f l) = l.all (fun z => exceptIsOk (f z)) := by
  intro l
  induction l with
  | nil => rfl
  | cons x xs ih =>
    rw [show mapStore f (x :: xs) = (match f x with
      | .error e => .error e
      | .ok y =>
        match mapStore f xs with
        | .error e => .error e
        | .ok ys => .ok (y :: ys)) from rfl, List.all_cons]
    cases hf : f x with
    | error e => rfl
    | ok y =>
      cases hm : mapStore f xs with
      | error e2 =>
        have hall : xs.all (fun z => exceptIsOk (f z)) = false := by
          rw [← ih, hm]
          rfl
        rw [hall]
        rfl
      | ok ys =>
        have hall : xs.all (fun z => exceptIsOk (f z)) = true := by
          rw [← ih, hm]
          rfl
        rw [hall]
        rfl

/-- C9 counterexample: the file key is present and its record has a meta
mapping, yet replace_meta_fields fails, because the meta value
backslash-one is an invalid regex replacement template. -/
theorem claim_C9_cx :
    dictLookup [("f".data, (⟨some "c".data,
        some [("x".data, "\\1".data)]⟩ : Record))] "f".data =
      some ⟨some "c".data, some [("x".data, "\\1".data)]⟩ ∧
    exceptIsOk (replace_meta_fields "\x7b\x7bx\x7d\x7d".data "f".data
      [("f".data, ⟨some "c".data, some [("x".data, "\\1".data)]⟩)]) = false := by
  constructor
  · decide
  · decide

/-- C9 (amended): load_meta_fields succeeds exactly when every record has a
content field; replace_meta_fields succeeds exactly when the file key is
bound to a record carrying a meta mapping all of whose (stripped) values
are valid replacement templates. -/
theorem claim_C9 :
    (∀ store : List (List Char × Record),
      exceptIsOk (load_meta_fields store) =
        store.all (fun p => p.2.content.isSome)) ∧
    (∀ (content file : List Char) (store : List (List Char × Record)),
      exceptIsOk (replace_meta_fields content file store) =
        (match dictLookup store file with
        | none => false
        | some r =>
          match r.meta with
          | none => false
          | some m =>
            m.all (fun p => exceptIsOk (expandTemplate
              ('\x7b' :: '\x7b' :: (p.1 ++ ['\x7d', '\x7d']))
              (stripList p.2))))) := by
  constructor
  · intro store
    unfold load_meta_fields
    rw [mapStoreIsOk]
    refine congrArg (fun f => store.all f) (funext fun p => ?_)
    cases hc : p.2.content with
    | none =>
      have hup : updateRecord p.2 = .error "KeyError: content" := by
        unfold updateRecord
        rw [hc]
      rw [hup]
      rfl
    | some c =>
      have hup : updateRecord p.2 = .ok ⟨some (extractCore c).2,
          some (dictUpdate (p.2.meta.getD []) (extractCore c).1)⟩ := by
        unfold updateRecord
        rw [hc]
      rw [hup]
      rfl
  · intro content file store
    unfold replace_meta_fields
    cases hl : dictLookup store file with
    | none => rfl
    | some r =>
      show exceptIsOk (match r.meta with
        | none => Except.error "KeyError: meta"
        | some m => replaceFieldsCore content m) =
        (match r.meta with
        | none => false
        | some m => m.all (fun p => exceptIsOk (expandTemplate
            ('\x7b' :: '\x7b' :: (p.1 ++ ['\x7d', '\x7d'])) (stripList p.2))))
      cases hm : r.meta with
      | none => rfl
      | some m => exact replaceFieldsIsOk m content

lemma hasSubstrCons (t : List Char) (c : Char) (x : List Char)
    (h : hasSubstr t x = true) : hasSubstr t (c :: x) = true := by
  simp [hasSubstr, h]

lemma keyNePref : ∀ (k n b : List Char), '\x7d' ∉ k → '\x7d' ∉ n → k ≠ n →
    isPref (k ++ ['\x7d', '\x7d']) (n ++ '\x7d' :: '\x7d' :: b) = false := by
  intro k
  induction k with
  | nil =>
    intro n b _ hn hkn
    cases n with
    | nil => exact absurd rfl hkn
    | cons m n' =>
      have hm : m ≠ '\x7d' := fun h => hn (h ▸ List.mem_cons_self m n')
      rw [List.nil_append, List.cons_append]
      show (if ('\x7d' : Char) = m then isPref ['\x7d'] (n' ++ '\x7d' :: '\x7d' :: b)
        else false) = false
      rw [if_neg (fun h => hm h.symm)]
  | cons c k' ih =>
    intro n b hk hn hkn
    have hc : c ≠ '\x7d' := fun h => hk (h ▸ List.mem_cons_self c k')
    cases n with
    | nil =>
      rw [List.cons_append, List.nil_append]
      show (if c = '\x7d' then isPref (k' ++ ['\x7d', '\x7d']) ('\x7d' :: b)
        else false) = false
      rw [if_neg hc]
    | cons m n' =>
      rw [List.cons_append, List.cons_append]
      show (if c = m then isPref (k' ++ ['\x7d', '\x7d']) (n' ++ '\x7d' :: '\x7d' :: b)
        else false) = false
      by_cases hcm : c = m
      · rw [if_pos hcm]
        apply ih n' b (fun h => hk (List.mem_cons_of_mem c h))
          (fun h => hn (List.mem_cons_of_mem m h))
        intro h
        exact hkn (by rw [hcm, h])
      · rw [if_neg hcm]

lemma headDropNe (ps : List Char) : ∀ (u b : List Char) (j : Nat), j < u.length →
    (∀ c ∈ u, c ≠ '\x7b') →
    isPref ('\x7b' :: ps) (List.drop j (u ++ b)) = false := by
  intro u
  induction u with
  | nil =>
    intro b j hj _
    simp at hj
  | cons c u' ih =>
    intro b j hj hu
    cases j with
    | zero =>
      rw [List.cons_append, List.drop_zero]
      show (if ('\x7b' : Char) = c then isPref ps (u' ++ b) else false) = false
      rw [if_neg (fun h => (hu c (List.mem_cons_self c u')) h.symm)]
    | succ j' =>
      rw [List.cons_append, List.drop_succ_cons]
      refine ih b j' ?_ (fun d hd => hu d (List.mem_cons_of_mem c hd))
      rw [List.length_cons] at hj
      omega

lemma noPatInToken (k n : List Char) (hk2 : '\x7d' ∉ k) (hn1 : '\x7b' ∉ n)
    (hn2 : '\x7d' ∉ n) (hkn : k ≠ n) :
    ∀ (j : Nat) (b : List Char), j < n.length + 4 →
    isPref ('\x7b' :: '\x7b' :: (k ++ ['\x7d', '\x7d']))
      (List.drop j (('\x7b' :: '\x7b' :: (n ++ ['\x7d', '\x7d'])) ++ b)) = false := by
  have huNotBrace : ∀ c ∈ n ++ ['\x7d', '\x7d'], c ≠ '\x7b' := by
    intro c hc
    rcases List.mem_append.mp hc with h | h
    · exact fun he => hn1 (he ▸ h)
    · simp at h
      subst h
      decide
  intro j b hj
  match j with
  | 0 =>
    rw [List.drop_zero, List.cons_append, List.cons_append]
    show (if ('\x7b' : Char) = '\x7b' then
      (if ('\x7b' : Char) = '\x7b' then
        isPref (k ++ ['\x7d', '\x7d']) ((n ++ ['\x7d', '\x7d']) ++ b)
      else false) else false) = false
    rw [if_pos rfl, if_pos rfl]
    have happ : (n ++ ['\x7d', '\x7d']) ++ b = n ++ '\x7d' :: '\x7d' :: b := by simp
    rw [happ]
    exact keyNePref k n b hk2 hn2 hkn
  | 1 =>
    rw [List.cons_append, List.cons_append, List.drop_succ_cons, List.drop_zero]
    show (if ('\x7b' : Char) = '\x7b' then
      isPref ('\x7b' :: (k ++ ['\x7d', '\x7d'])) ((n ++ ['\x7d', '\x7d']) ++ b)
      else false) = false
    rw [if_pos rfl]
    have h0 := headDropNe (k ++ ['\x7d', '\x7d']) (n ++ ['\x7d', '\x7d']) b 0
      (by simp) huNotBrace
    rw [List.drop_zero] at h0
    exact h0
  | (j' + 2) =>
    rw [List.cons_append, List.cons_append, List.drop_succ_cons, List.drop_succ_cons]
    refine headDropNe ('\x7b' :: (k ++ ['\x7d', '\x7d'])) (n ++ ['\x7d', '\x7d']) b j' ?_
      huNotBrace
    rw [List.length_append]
    simp
    omega

lemma passThrough (pat rep : List Char) : ∀ (u b : List Char) (f : Nat),
    (∀ j, j < u.length → isPref pat (List.drop j (u ++ b)) = false) →
    replaceAllF pat rep (u.length + f) (u ++ b) = u ++ replaceAllF pat rep f b := by
  intro u
  induction u with
  | nil =>
    intro b f _
    rw [List.nil_append, List.nil_append, List.length_nil, Nat.zero_add]
  | cons c u' ih =>
    intro b f hyp
    have hflen : (c :: u').length + f = (u'.length + f) + 1 := by
      rw [List.length_cons]
      omega
    rw [hflen, List.cons_append]
    have h0 := hyp 0 (by rw [List.length_cons]; omega)
    rw [List.drop_zero, List.cons_append] at h0
    show (if isPref pat (c :: (u' ++ b)) = true then
        rep ++ replaceAllF pat rep (u'.length + f)
          (List.drop pat.length (c :: (u' ++ b)))
      else c :: replaceAllF pat rep (u'.length + f) (u' ++ b)) = (c :: u') ++
        replaceAllF pat rep f b
    rw [if_neg (by rw [h0]; exact Bool.noConfusion)]
    rw [List.cons_append]
    refine congrArg (fun x => c :: x) (ih b f ?_)
    intro j hj
    have hshift := hyp (j + 1) (by rw [List.length_cons]; omega)
    rw [List.cons_append, List.drop_succ_cons] at hshift
    exact hshift

lemma survivalAux (k n rep : List Char)
    (hk1 : '\x7b' ∉ k) (hk2 : '\x7d' ∉ k) (hn1 : '\x7b' ∉ n) (hn2 : '\x7d' ∉ n)
    (hkn : k ≠ n) :
    ∀ (f : Nat) (s : List Char), s.length ≤ f →
      hasSubstr ('\x7b' :: '\x7b' :: (n ++ ['\x7d', '\x7d'])) s = true →
      hasSubstr ('\x7b' :: '\x7b' :: (n ++ ['\x7d', '\x7d']))
        (replaceAllF ('\x7b' :: '\x7b' :: (k ++ ['\x7d', '\x7d'])) rep f s) = true := by
  intro f
  induction f with
  | zero =>
    intro s hl h
    exact h
  | succ f' ih =>
    intro s hl h
    cases s with
    | nil => exact h
    | cons c rest =>
      set PAT := ('\x7b' :: '\x7b' :: (k ++ ['\x7d', '\x7d']) : List Char) with hPAT
      set T := ('\x7b' :: '\x7b' :: (n ++ ['\x7d', '\x7d']) : List Char) with hT
      have hPATlen : PAT.length = k.length + 4 := by
        rw [hPAT]
        simp
      have hTlen : T.length = n.length + 4 := by
        rw [hT]
        simp
      obtain ⟨a, b2, hab⟩ := (hasSubstrIff T (c :: rest)).mp h
      cases hp : isPref PAT (c :: rest) with
      | true =>
        obtain ⟨s1, hs1⟩ := (isPrefIff PAT (c :: rest)).mp hp
        have hstep : replaceAllF PAT rep (f' + 1) (c :: rest) =
            rep ++ replaceAllF PAT rep f' s1 := by
          show (if isPref PAT (c :: rest) = true then
              rep ++ replaceAllF PAT rep f' (List.drop PAT.length (c :: rest))
            else c :: replaceAllF PAT rep f' rest) = _
          rw [hp, hs1, List.drop_left]
          simp
        rw [hstep]
        have hlens := congrArg List.length hs1
        rw [List.length_cons, List.length_append] at hlens
        rw [List.length_cons] at hl
        by_cases hlen : PAT.length ≤ a.length
        · -- the token occurrence lies beyond the replaced span
          have heq : PAT ++ s1 = (a ++ T) ++ b2 := by
            rw [← hs1, hab]
          set ad := a.drop PAT.length with had
          have hTake : a.take PAT.length = PAT := by
            have h1 : (PAT ++ s1).take PAT.length = PAT := List.take_left PAT s1
            rw [heq, List.append_assoc,
              List.take_append_of_le_length hlen] at h1
            exact h1
          have ha : a = PAT ++ ad := by
            conv_lhs => rw [← List.take_append_drop PAT.length a]
            rw [hTake]
          have hPs : PAT ++ s1 = PAT ++ ((ad ++ T) ++ b2) := by
            rw [heq, ha]
            simp [List.append_assoc]
          have hs1eq : s1 = (ad ++ T) ++ b2 := List.append_cancel_left hPs
          have hsub : hasSubstr T s1 = true :=
            (hasSubstrIff T s1).mpr ⟨ad, b2, hs1eq⟩
          have hfuel : s1.length ≤ f' := by
            rw [hPATlen] at hlens
            omega
          exact hasSubstrApp T rep _ (ih s1 hfuel hsub)
        · -- impossible: the token would overlap the replaced span
          exfalso
          have hocc : isPref T (List.drop a.length (c :: rest)) = true := by
            rw [hab, List.append_assoc, List.drop_left]
            exact (isPrefIff T (T ++ b2)).mpr ⟨b2, rfl⟩
          have hnot := noPatInToken n k hn2 hk1 hk2 (fun hx => hkn hx.symm)
            a.length s1 (by rw [hPATlen] at hlen; omega)
          rw [hs1] at hocc
          rw [hnot] at hocc
          exact Bool.noConfusion hocc
      | false =>
        have hstep : replaceAllF PAT rep (f' + 1) (c :: rest) =
            c :: replaceAllF PAT rep f' rest := by
          show (if isPref PAT (c :: rest) = true then
              rep ++ replaceAllF PAT rep f' (List.drop PAT.length (c :: rest))
            else c :: replaceAllF PAT rep f' rest) = _
          rw [hp]
          simp
        rw [hstep]
        cases a with
        | nil =>
          -- the token occurrence starts right here and no match can start
          -- inside it, so the scan passes it through unchanged
          have habn : c :: rest = T ++ b2 := by simpa using hab
          rw [hT, List.cons_append] at habn
          injection habn with hc hrest
          set U := ('\x7b' :: (n ++ ['\x7d', '\x7d']) : List Char) with hU
          have hUlen : U.length = n.length + 3 := by
            rw [hU]
            simp
          have hrl : rest.length ≤ f' := by
            rw [List.length_cons] at hl
            omega
          have hul : U.length ≤ f' := by
            have := congrArg List.length hrest
            rw [List.length_append] at this
            omega
          obtain ⟨f'', hf''⟩ := Nat.le.dest hul
          have hyp : ∀ j, j < U.length →
              isPref PAT (List.drop j (U ++ b2)) = false := by
            intro j hj
            have hno := noPatInToken k n hk2 hn1 hn2 hkn (j + 1) b2
              (by rw [hUlen] at hj; omega)
            have hTb : (T ++ b2) = '\x7b' :: (U ++ b2) := by
              rw [hT, hU]
              simp
            rw [hTb, List.drop_succ_cons] at hno
            exact hno
          have hpass := passThrough PAT rep U b2 f'' hyp
          rw [hf''] at hpass
          rw [hrest]
          show hasSubstr T (c :: replaceAllF PAT rep f' (U ++ b2)) = true
          rw [hpass]
          apply hasSubstrOfPref
          refine (isPrefIff T _).mpr ⟨replaceAllF PAT rep f'' b2, ?_⟩
          rw [hc, hT, hU]
          simp
        | cons a0 a' =>
          rw [List.cons_append, List.cons_append] at hab
          injection hab with h1 h2
          have hsub : hasSubstr T rest = true :=
            (hasSubstrIff T rest).mpr ⟨a', b2, h2⟩
          have hfuel : rest.length ≤ f' := by
            rw [List.length_cons] at hl
            omega
          exact hasSubstrCons T c _ (ih rest hfuel hsub)

/-- C6 counterexample: with mapping key left-brace-u (which contains a brace),
the unknown placeholder spanning u is destroyed: it occurs in the content but
not in the successful output, even though u is not a key of the mapping. -/
theorem claim_C6_cx :
    dictLookup [("\x7bu".data, "X".data)] "u".data = none ∧
    hasSubstr ('\x7b' :: '\x7b' :: ("u".data ++ ['\x7d', '\x7d']))
      "\x7b\x7b\x7bu\x7d\x7d\x7d".data = true ∧
    replaceFieldsCore "\x7b\x7b\x7bu\x7d\x7d\x7d".data
      [("\x7bu".data, "X".data)] = .ok "X\x7d".data ∧
    hasSubstr ('\x7b' :: '\x7b' :: ("u".data ++ ['\x7d', '\x7d']))
      "X\x7d".data = false := by
  refine ⟨by decide, by decide, by decide, by decide⟩

/-- C6 (amended): a placeholder is directly targeted only when its exact name
is a key; when the mapping's keys and the placeholder name are brace-free and
the name is not a key, an occurrence of the placeholder in the content
survives into the (successful) output; and the reference substitution leaves
the unknown placeholder untouched. -/
theorem claim_C6 :
    (∀ (meta : List (List Char × List Char)) (content n out : List Char),
      (∀ p ∈ meta, '\x7b' ∉ p.1 ∧ '\x7d' ∉ p.1) →
      '\x7b' ∉ n → '\x7d' ∉ n →
      (∀ p ∈ meta, p.1 ≠ n) →
      replaceFieldsCore content meta = .ok out →
      hasSubstr ('\x7b' :: '\x7b' :: (n ++ ['\x7d', '\x7d'])) content = true →
      hasSubstr ('\x7b' :: '\x7b' :: (n ++ ['\x7d', '\x7d'])) out = true) ∧
    replace_fields "Hi \x7b\x7bname\x7d\x7d, \x7b\x7bunknown\x7d\x7d"
      [("name", "Ann")] = .ok "Hi Ann, \x7b\x7bunknown\x7d\x7d" := by
  constructor
  · intro meta
    induction meta with
    | nil =>
      intro content n out _ _ _ _ hok hc
      have hoc : out = content := by
        have h0 : replaceFieldsCore content [] = .ok content := rfl
        rw [h0] at hok
        injection hok with h1
        exact h1.symm
      rw [hoc]
      exact hc
    | cons p rest ih =>
      intro content n out hbr hn1 hn2 hkeys hok hc
      cases he : expandTemplate ('\x7b' :: '\x7b' :: (p.1 ++ ['\x7d', '\x7d']))
          (stripList p.2) with
      | error e =>
        exfalso
        have hrf : replaceFieldCore content p.1 (stripList p.2) = .error e := by
          unfold replaceFieldCore
          rw [he]
        have herr : replaceFieldsCore content (p :: rest) = .error e := by
          show (((p.1, stripList p.2) ::
              rest.map (fun q => (q.1, stripList q.2))).foldl
            (fun (acc : Except String (List Char)) q =>
              match acc with
              | Except.error e2 => Except.error e2
              | Except.ok c => replaceFieldCore c q.1 q.2)
            (Except.ok content)) = Except.error e
          rw [List.foldl_cons]
          show ((rest.map (fun q => (q.1, stripList q.2))).foldl
            (fun (acc : Except String (List Char)) q =>
              match acc with
              | Except.error e2 => Except.error e2
              | Except.ok c => replaceFieldCore c q.1 q.2)
            (replaceFieldCore content p.1 (stripList p.2))) = Except.error e
          rw [hrf, foldFromError]
        rw [herr] at hok
        exact Except.noConfusion hok
      | ok v =>
        have hrf : replaceFieldCore content p.1 (stripList p.2) =
            .ok (replaceAll ('\x7b' :: '\x7b' :: (p.1 ++ ['\x7d', '\x7d']))
              v content) := by
          unfold replaceFieldCore
          rw [he]
        have hok2 : replaceFieldsCore
            (replaceAll ('\x7b' :: '\x7b' :: (p.1 ++ ['\x7d', '\x7d'])) v content)
            rest = .ok out := by
          have hdef : replaceFieldsCore content (p :: rest) =
              replaceFieldsCore
                (replaceAll ('\x7b' :: '\x7b' :: (p.1 ++ ['\x7d', '\x7d'])) v content)
                rest := by
            show (((p.1, stripList p.2) ::
                rest.map (fun q => (q.1, stripList q.2))).foldl
              (fun (acc : Except String (List Char)) q =>
                match acc with
                | Except.error e2 => Except.error e2
                | Except.ok c => replaceFieldCore c q.1 q.2)
              (Except.ok content)) = _
            rw [List.foldl_cons]
            show ((rest.map (fun q => (q.1, stripList q.2))).foldl
              (fun (acc : Except String (List Char)) q =>
                match acc with
                | Except.error e2 => Except.error e2
                | Except.ok c => replaceFieldCore c q.1 q.2)
              (replaceFieldCore content p.1 (stripList p.2))) = _
            rw [hrf]
            rfl
          rw [← hdef]
          exact hok
        have hbrp := hbr p (List.mem_cons_self p rest)
        have hsurv := survivalAux p.1 n v hbrp.1 hbrp.2 hn1 hn2
          (hkeys p (List.mem_cons_self p rest)) content.length content le_rfl hc
        exact ih (replaceAll ('\x7b' :: '\x7b' :: (p.1 ++ ['\x7d', '\x7d'])) v content)
          n out (fun q hq => hbr q (List.mem_cons_of_mem p hq)) hn1 hn2
          (fun q hq => hkeys q (List.mem_cons_of_mem p hq)) hok2 hsurv
  · decide

theorem claim_C6_witness :
    hasSubstr ('\x7b' :: '\x7b' :: ("unknown".data ++ ['\x7d', '\x7d']))
      "Hi Ann, \x7b\x7bunknown\x7d\x7d".data = true :=
  claim_C6.1 [("name".data, "Ann".data)]
    "Hi \x7b\x7bname\x7d\x7d, \x7b\x7bunknown\x7d\x7d".data "unknown".data
    "Hi Ann, \x7b\x7bunknown\x7d\x7d".data
    (by decide) (by decide) (by decide) (by decide) (by decide) (by decide)
